import Mathlib

/-!
Shallow embedding of the googledrive sync tool (src/sync_engine.py,
src/drive_client.py, src/file_monitor.py).

Python dicts with optional keys are modelled as structures of `Option`
fields (a missing key is `none`); file-system and remote I/O is modelled
by an explicit environment of oracles (`Env`) and an explicit local
file-system map; every engine operation returns the new state together
with a trace of the externally visible operations it performed
(downloads, uploads, remote deletes, local unlinks, state saves, caught
errors).  Python exceptions raised inside a `try` body are modelled by a
`Bool` "raised" flag that aborts exactly the statements the corresponding
`except` clause would skip.
-/

namespace GDSync

/-- One entry of the persisted sync-state document
    (`SyncState.state[relative_path]` in src/sync_engine.py); every field
    is optional because the Python dict only holds keys that were set. -/
structure FileRec where
  drive_id : Option String
  local_mtime : Option Nat
  drive_mtime : Option String
  checksum : Option String
deriving DecidableEq, Repr

/-- The record a fresh `self.state[relative_path] = {}` creates. -/
def emptyRec : FileRec := ⟨none, none, none, none⟩

/-- Python truthiness of a record dict: truthy iff non-empty. -/
abbrev FileRec.truthy (r : FileRec) : Prop := r ≠ emptyRec

/-- Python truthiness of `state.get(...)` for a string-valued key:
    truthy iff present and non-empty. -/
abbrev strTruthy (o : Option String) : Prop := o.getD "" ≠ ""

/-- One entry of the Drive listing returned by
    `DriveClient.list_files` (src/drive_client.py): id, name and the
    (possibly absent, hence `file.get('modifiedTime')`) modification
    time. -/
structure DriveFile where
  id : String
  name : String
  modifiedTime : Option String
deriving DecidableEq, Repr

/-- A local file as far as the engine observes it: its stat mtime and
    the digest `_calculate_checksum` would compute from its content. -/
structure LocalFile where
  mtime : Nat
  checksum : String
deriving DecidableEq, Repr

/-- Association-list lookup for string-keyed maps (Python dict `get`). -/
def alookup {β : Type} : List (String × β) → String → Option β
  | [], _ => none
  | (q, v) :: t, p => if q = p then some v else alookup t p

/-- Association-list update (Python `d[k] = v`): replaces in place when
    the key is present, appends otherwise — matching dict insertion
    order. -/
def aset {β : Type} : List (String × β) → String → β → List (String × β)
  | [], p, r => [(p, r)]
  | (q, v) :: t, p, r => if q = p then (q, r) :: t else (q, v) :: aset t p r

/-- Association-list removal (Python `del d[k]`). -/
def aerase {β : Type} : List (String × β) → String → List (String × β)
  | [], _ => []
  | (q, v) :: t, p => if q = p then t else (q, v) :: aerase t p

/-- The in-memory sync state: relative path → record
    (`SyncState.state`). -/
abbrev StateMap := List (String × FileRec)

/-- The local sync folder: relative path → file. -/
abbrev FS := List (String × LocalFile)

/-- `local_path.exists()` in the model. -/
def existsFS (fs : FS) (p : String) : Bool := (alookup fs p).isSome

/-- Merge one optional argument over one stored field, as
    `if arg is not None: state[key] = arg` does. -/
def mergeOpt {α : Type} (newv old : Option α) : Option α :=
  match newv with
  | some v => some v
  | none => old

/-- `SyncState.update_file_state`'s per-record part: merge exactly the
    provided fields into the record. -/
def FileRec.applyFields (r : FileRec) (d : Option String) (lm : Option Nat)
    (dm : Option String) (ck : Option String) : FileRec :=
  { drive_id := mergeOpt d r.drive_id
    local_mtime := mergeOpt lm r.local_mtime
    drive_mtime := mergeOpt dm r.drive_mtime
    checksum := mergeOpt ck r.checksum }

/-- `SyncState.update_file_state` (src/sync_engine.py lines 54-77):
    create the record if absent, merge the provided fields, then save. -/
def updateFileState (st : StateMap) (p : String) (d : Option String)
    (lm : Option Nat) (dm : Option String) (ck : Option String) : StateMap :=
  aset st p (((alookup st p).getD emptyRec).applyFields d lm dm ck)

/-- `SyncState.remove_file_state`'s map part. -/
def removeFileState (st : StateMap) (p : String) : StateMap := aerase st p

/-- `SyncState.get_file_state`. -/
def getFileState (st : StateMap) (p : String) : Option FileRec := alookup st p

/-!  The persisted document (`json.dump` / `json.load` of the state
     dict) is modelled by a small JSON value type; absent record fields
     are omitted from the serialized object, matching the layout
     described for `.sync_state.json`. -/

/-- A JSON value, restricted to the shapes the state file uses. -/
inductive JVal where
  | jstr (s : String)
  | jnum (n : Nat)
  | jobj (fields : List (String × JVal))

/-- Emit one optional field of a record. -/
def optField (name : String) (v : Option JVal) : List (String × JVal) :=
  match v with
  | some j => [(name, j)]
  | none => []

/-- Serialize one record: only the present fields appear, as keys of an
    object. -/
def encodeRec (r : FileRec) : JVal :=
  .jobj (optField "drive_id" (r.drive_id.map .jstr)
    ++ optField "local_mtime" (r.local_mtime.map .jnum)
    ++ optField "drive_mtime" (r.drive_mtime.map .jstr)
    ++ optField "checksum" (r.checksum.map .jstr))

/-- Serialize the whole state map (`SyncState.save`). -/
def encodeState (st : StateMap) : JVal :=
  .jobj (st.map (fun e => (e.1, encodeRec e.2)))

def asStr : JVal → Option String
  | .jstr s => some s
  | _ => none

def asNum : JVal → Option Nat
  | .jnum n => some n
  | _ => none

/-- Parse one record back from its JSON object (`SyncState.load`). -/
def decodeRec : JVal → Option FileRec
  | .jobj l =>
    some ⟨(alookup l "drive_id").bind asStr,
          (alookup l "local_mtime").bind asNum,
          (alookup l "drive_mtime").bind asStr,
          (alookup l "checksum").bind asStr⟩
  | _ => none

def decodeEntries : List (String × JVal) → Option StateMap
  | [] => some []
  | (k, v) :: t =>
    match decodeRec v, decodeEntries t with
    | some r, some t' => some ((k, r) :: t')
    | _, _ => none

/-- Parse the whole persisted document back into a state map. -/
def decodeState : JVal → Option StateMap
  | .jobj l => decodeEntries l
  | _ => none

theorem decodeRec_encodeRec (r : FileRec) : decodeRec (encodeRec r) = some r := by
  obtain ⟨d, lm, dm, ck⟩ := r
  cases d <;> cases lm <;> cases dm <;> cases ck <;> rfl

theorem decodeState_encodeState (st : StateMap) :
    decodeState (encodeState st) = some st := by
  induction st with
  | nil => rfl
  | cons e t ih =>
    simp only [encodeState, decodeState, List.map_cons, decodeEntries,
      decodeRec_encodeRec]
    simp only [encodeState, decodeState] at ih
    rw [ih]

/-!  The pending-change queue
     (`SyncEngine.pending_changes : defaultdict(set)` together with
     `_on_local_change` and `_process_pending_changes`). -/

/-- The queue: event kind (a plain string, as in the source) → set of
    relative paths, the set modelled as a duplicate-free list. -/
abbrev Pending := List (String × List String)

/-- `set.add`: a no-op when the element is already present. -/
def addToSet (l : List String) (p : String) : List String :=
  if p ∈ l then l else l ++ [p]

/-- `self.pending_changes[event_type].add(relative_path)`
    (src/sync_engine.py line 128): the defaultdict creates the per-kind
    set on first access. -/
def enqueue : Pending → String → String → Pending
  | [], k, p => [(k, [p])]
  | (k', s) :: t, k, p =>
    if k' = k then (k', addToSet s p) :: t else (k', s) :: enqueue t k p

/-- `self.pending_changes.pop(kind, set())`: remove and return the
    per-kind set. -/
def popKind : Pending → String → List String × Pending
  | [], _ => ([], [])
  | (k, s) :: t, key =>
    if k = key then (s, t)
    else
      let r := popKind t key
      (r.1, (k, s) :: r.2)

/-- The drain performed by `_process_pending_changes`: pop `deleted`,
    then `created`, then `modified`, then `clear()` the queue; the
    result is the triple of popped sets in processing order. -/
def drainAll (pending : Pending) :
    (List String × List String × List String) × Pending :=
  let d := popKind pending "deleted"
  let c := popKind d.2 "created"
  let m := popKind c.2 "modified"
  ((d.1, c.1, m.1), [])

/-!  The engine proper (`SyncEngine`).  External effects are driven by
     an oracle environment and recorded in a trace. -/

/-- One externally visible operation performed by the engine.  `save`
    snapshots the state map handed to `SyncState.save`; `pushError` is
    the `logger.error` of `_sync_local_to_drive`'s `except` clause,
    `pullError` that of `_sync_drive_to_local`'s. -/
inductive Op where
  | download (id : String) (path : String) (ok : Bool)
  | uploadCreate (path : String) (result : Option String)
  | uploadUpdate (fileId : String) (path : String) (result : Option String)
  | deleteRemote (id : String) (ok : Bool)
  | unlinkLocal (path : String)
  | save (st : StateMap)
  | pushError (path : String)
  | pullError
deriving DecidableEq, Repr

/-- The collaborators' behaviour, as deterministic oracles: the Drive
    listing, the success/failure of each remote call, and which local
    file accesses raise (a `stat`, checksum read or `unlink` hitting a
    race or I/O error).  `upload` takes the path and the `file_id`
    argument and returns the id `DriveClient.upload_file` returns
    (`none` for its caught-`HttpError` path). -/
structure Env where
  listing : List DriveFile
  downloadOk : String → Bool
  downloadMtime : String → Nat
  downloadChecksum : String → String
  statRaises : String → Bool
  checksumRaises : String → Bool
  unlinkRaises : String → Bool
  deleteOk : String → Bool
  deleteRaises : String → Bool
  upload : String → Option String → Option String
  metadata : String → Option DriveFile

/-- `drive_file_ids` as accumulated over the full listing. -/
def listingIds (env : Env) : List String := env.listing.map (·.id)

/-- The `drive_id = state.get('drive_id') if state else None` argument
    `_sync_local_to_drive` passes to `upload_file`. -/
def pushDriveIdArg (st : StateMap) (p : String) : Option String :=
  match alookup st p with
  | some r => if r.truthy then r.drive_id else none
  | none => none

/-- `SyncEngine._sync_local_to_drive` (src/sync_engine.py lines
    133-176).  Its whole body is inside one `try`: a raise is caught
    here, logged (`pushError`), and leaves state and file system as the
    already-executed statements left them. -/
def syncLocalToDrive (env : Env) (fs : FS) (st : StateMap) (p : String)
    (ev : String) : FS × StateMap × List Op :=
  if ev = "deleted" then
    match alookup st p with
    | some r =>
      if r.truthy ∧ strTruthy r.drive_id then
        let i := r.drive_id.getD ""
        if env.deleteRaises i then (fs, st, [.pushError p])
        else
          let st' := removeFileState st p
          (fs, st', [.deleteRemote i (env.deleteOk i), .save st'])
      else (fs, st, [])
    | none => (fs, st, [])
  else
    if existsFS fs p then
      let arg := pushDriveIdArg st p
      let res := env.upload p arg
      let upOp := if strTruthy arg then Op.uploadUpdate (arg.getD "") p res
                  else Op.uploadCreate p res
      if strTruthy res then
        if env.statRaises p then (fs, st, [upOp, .pushError p])
        else
          match alookup fs p with
          | some lf =>
            if env.checksumRaises p then (fs, st, [upOp, .pushError p])
            else
              let dm := (env.metadata (res.getD "")).bind (·.modifiedTime)
              let st' := updateFileState st p res (some lf.mtime) dm
                (some lf.checksum)
              (fs, st', [upOp, .save st'])
          | none => (fs, st, [upOp, .pushError p])
      else (fs, st, [upOp])
    else (fs, st, [])

/-- The `should_download` decision of `_sync_drive_to_local` (lines
    194-202): download when the local file is missing, or when a truthy
    record's stored `drive_mtime` differs from the entry's current
    modification time. -/
def shouldDownload (fs : FS) (st : StateMap) (f : DriveFile) : Bool :=
  if ¬ existsFS fs f.name then true
  else
    match alookup st f.name with
    | some r => if r.truthy ∧ r.drive_mtime ≠ f.modifiedTime then true
                else false
    | none => false

/-- One iteration of `_sync_drive_to_local`'s listing loop for one
    Drive file; the `Bool` is true when a statement raised (a raise
    propagates to the function-level `except`, aborting the rest of the
    pass). -/
def pullStep (env : Env) (fs : FS) (st : StateMap) (ops : List Op)
    (f : DriveFile) : (FS × StateMap × List Op) × Bool :=
  if shouldDownload fs st f then
    if env.downloadOk f.id then
      let lf : LocalFile := ⟨env.downloadMtime f.id, env.downloadChecksum f.id⟩
      let fs' := aset fs f.name lf
      let ops' := ops ++ [.download f.id f.name true]
      if env.statRaises f.name then ((fs', st, ops'), true)
      else if env.checksumRaises f.name then ((fs', st, ops'), true)
      else
        let st' := updateFileState st f.name (some f.id) (some lf.mtime)
          f.modifiedTime (some lf.checksum)
        ((fs', st', ops' ++ [.save st']), false)
    else ((fs, st, ops ++ [.download f.id f.name false]), false)
  else ((fs, st, ops), false)

/-- The listing loop of `_sync_drive_to_local`; stops at the first
    raise. -/
def pullLoop (env : Env) : List DriveFile → FS × StateMap × List Op →
    (FS × StateMap × List Op) × Bool
  | [], acc => (acc, false)
  | f :: t, acc =>
    let r := pullStep env acc.1 acc.2.1 acc.2.2 f
    if r.2 then (r.1, true) else pullLoop env t r.1

/-- One iteration of `_sync_drive_to_local`'s deletion loop (lines
    218-228): remove records whose truthy dict carries a `drive_id`
    absent from the fetched id set, unlinking the local file first. -/
def delStep (env : Env) (ids : List String) (fs : FS) (st : StateMap)
    (ops : List Op) (p : String) : (FS × StateMap × List Op) × Bool :=
  match alookup st p with
  | none => ((fs, st, ops), false)
  | some r =>
    if r.truthy ∧ r.drive_id ∉ ids.map some then
      if existsFS fs p then
        if env.unlinkRaises p then ((fs, st, ops), true)
        else
          let fs' := aerase fs p
          let st' := removeFileState st p
          ((fs', st', ops ++ [.unlinkLocal p, .save st']), false)
      else
        let st' := removeFileState st p
        ((fs, st', ops ++ [.save st']), false)
    else ((fs, st, ops), false)

/-- The deletion loop over the snapshot of tracked paths. -/
def delLoop (env : Env) (ids : List String) : List String →
    FS × StateMap × List Op → (FS × StateMap × List Op) × Bool
  | [], acc => (acc, false)
  | p :: t, acc =>
    let r := delStep env ids acc.1 acc.2.1 acc.2.2 p
    if r.2 then (r.1, true) else delLoop env ids t r.1

/-- `SyncEngine._sync_drive_to_local` (lines 178-231): listing loop,
    then deletion loop, the whole body inside a single `try` whose
    `except` logs (`pullError`) and returns, so a raise inside one
    file's processing skips every remaining file of the pass. -/
def syncDriveToLocal (env : Env) (fs : FS) (st : StateMap) :
    FS × StateMap × List Op :=
  let r := pullLoop env env.listing (fs, st, [])
  if r.2 then (r.1.1, r.1.2.1, r.1.2.2 ++ [.pullError])
  else
    let tracked := r.1.2.1.map Prod.fst
    let r2 := delLoop env (listingIds env) tracked r.1
    if r2.2 then (r2.1.1, r2.1.2.1, r2.1.2.2 ++ [.pullError]) else r2.1

/-- Processing of one popped set, in order, each path through
    `_sync_local_to_drive` (which catches its own raises). -/
def processList (env : Env) : List String → String →
    FS × StateMap × List Op → FS × StateMap × List Op
  | [], _, acc => acc
  | p :: t, ev, acc =>
    let a := syncLocalToDrive env acc.1 acc.2.1 p ev
    processList env t ev (a.1, a.2.1, acc.2.2 ++ a.2.2)

/-- `SyncEngine._process_pending_changes` (lines 233-249): early return
    on an empty queue, else pop and process `deleted`, then `created`,
    then `modified`, then `clear()`. -/
def processPendingChanges (env : Env) (pending : Pending) (fs : FS)
    (st : StateMap) : Pending × FS × StateMap × List Op :=
  if pending = [] then (pending, fs, st, [])
  else
    let d := popKind pending "deleted"
    let a1 := processList env d.1 "deleted" (fs, st, [])
    let c := popKind d.2 "created"
    let a2 := processList env c.1 "created" a1
    let m := popKind c.2 "modified"
    let a3 := processList env m.1 "modified" a2
    ([], a3)

/-- Helper for `pathName`: the characters after the last `/`. -/
def pathNameAux : List Char → List Char → List Char
  | [], acc => acc.reverse
  | c :: t, acc => if c = '/' then pathNameAux t [] else pathNameAux t (c :: acc)

/-- `file_path.name`: the last path component. -/
def pathName (p : String) : String := ⟨pathNameAux p.data []⟩

/-- `s.startswith(pre)`. -/
def strStartsWith (s pre : String) : Bool := pre.data.isPrefixOf s.data

/-- `s.endswith(suf)`. -/
def strEndsWith (s suf : String) : Bool := suf.data.isSuffixOf s.data

/-- Helper for the Python substring test `needle in hay`. -/
def subList (needle : List Char) : List Char → Bool
  | [] => needle.isPrefixOf []
  | c :: t => needle.isPrefixOf (c :: t) || subList needle t

/-- Substring test (`needle in haystack` in Python). -/
def containsSub (hay needle : String) : Bool := subList needle.data hay.data

/-- The local walk of `initial_sync` (lines 259-267) over a snapshot of
    the local tree: upload every non-hidden file whose record is absent,
    falsy, or has a falsy `drive_id`. -/
def walkLoop (env : Env) : List String → FS × StateMap × List Op →
    FS × StateMap × List Op
  | [], acc => acc
  | p :: t, acc =>
    if ¬ strStartsWith (pathName p) "." then
      let up :=
        match alookup acc.2.1 p with
        | some r => if r.truthy ∧ strTruthy r.drive_id then false else true
        | none => true
      if up then
        let a := syncLocalToDrive env acc.1 acc.2.1 p "created"
        walkLoop env t (a.1, a.2.1, acc.2.2 ++ a.2.2)
      else walkLoop env t acc
    else walkLoop env t acc

/-- `SyncEngine.initial_sync` (lines 251-269): the pull pass first, then
    the local walk over the (post-pull) local tree. -/
def initialSync (env : Env) (fs : FS) (st : StateMap) :
    FS × StateMap × List Op :=
  let a := syncDriveToLocal env fs st
  walkLoop env (a.1.map Prod.fst) a

/-!  The file monitor (src/file_monitor.py). -/

/-- A watchdog event as `FileChangeHandler` sees it. -/
structure FsEvent where
  isDirectory : Bool
  srcPath : String
  destPath : String
deriving DecidableEq, Repr

/-- `FileChangeHandler._should_ignore` (lines 28-44): hidden names,
    temporary suffixes, and the sync-state file. -/
def shouldIgnore (srcPath : String) : Bool :=
  let name := pathName srcPath
  if strStartsWith name "." then true
  else if strEndsWith name ".tmp" then true
  else if strEndsWith name ".swp" then true
  else if strEndsWith name "~" then true
  else if containsSub name ".sync_state" then true
  else false

/-- `FileChangeHandler.on_moved` (lines 70-77): the callbacks delivered
    for one move event, in order. -/
def onMoved (ev : FsEvent) : List (String × String) :=
  if ev.isDirectory then []
  else if shouldIgnore ev.srcPath then []
  else [("deleted", ev.srcPath), ("created", ev.destPath)]

/-- `FileChangeHandler.on_created`. -/
def onCreated (ev : FsEvent) : List (String × String) :=
  if ev.isDirectory then []
  else if shouldIgnore ev.srcPath then []
  else [("created", ev.srcPath)]

/-- `FileChangeHandler.on_modified`. -/
def onModified (ev : FsEvent) : List (String × String) :=
  if ev.isDirectory then []
  else if shouldIgnore ev.srcPath then []
  else [("modified", ev.srcPath)]

/-- `FileChangeHandler.on_deleted`. -/
def onDeleted (ev : FsEvent) : List (String × String) :=
  if ev.isDirectory then []
  else if shouldIgnore ev.srcPath then []
  else [("deleted", ev.srcPath)]

/-!  Predicates used by the claims. -/

/-- Does the trace contain a create-upload (an `upload_file` call with
    `file_id=None`) for path `p`? -/
def hasCreateFor (p : String) (ops : List Op) : Bool :=
  ops.any fun o =>
    match o with
    | .uploadCreate q _ => q == p
    | _ => false

/-- Does the trace contain a download? -/
def hasDownload (ops : List Op) : Bool :=
  ops.any fun o =>
    match o with
    | .download _ _ _ => true
    | _ => false

/-- Every record of the map carries a `drive_id` field. -/
def allDriveId (st : StateMap) : Bool :=
  st.all fun e => e.2.drive_id.isSome

/-- Every state snapshot handed to `SyncState.save` in this trace has a
    `drive_id` field in every record. -/
def savesAllDriveId (ops : List Op) : Bool :=
  ops.all fun o =>
    match o with
    | .save s => allDriveId s
    | _ => true

/-- Every truthy record's `drive_id` appears in the current remote
    listing (no stale remote ids). -/
def goodSt (env : Env) (st : StateMap) : Prop :=
  ∀ p r, alookup st p = some r → r.truthy →
    ∃ i, r.drive_id = some i ∧ i ∈ listingIds env

/-- The listing-loop condition under which `_sync_drive_to_local` does
    nothing for entry `f`: the local file exists and the tracked record
    (when present and truthy) already carries `f`'s modification
    time. -/
def pullNoOp (fs : FS) (st : StateMap) (f : DriveFile) : Prop :=
  existsFS fs f.name = true ∧
    ∀ r, alookup st f.name = some r →
      r = emptyRec ∨ r.drive_mtime = f.modifiedTime

/-!  Concrete worlds for the counterexamples and witnesses. -/

/-- A benign environment: every remote call succeeds, no local access
    raises, uploads return id `"u1"`, the listing is empty. -/
def envBase : Env :=
  { listing := []
    downloadOk := fun _ => true
    downloadMtime := fun _ => 7
    downloadChecksum := fun _ => "dl"
    statRaises := fun _ => false
    checksumRaises := fun _ => false
    unlinkRaises := fun _ => false
    deleteOk := fun _ => true
    deleteRaises := fun _ => false
    upload := fun _ _ => some "u1"
    metadata := fun _ => none }

/-- Remote root holding one file `f.txt`. -/
def envC1 : Env := { envBase with listing := [⟨"id1", "f.txt", some "t"⟩] }

/-- A local `f.txt` already present, same name as the remote file. -/
def fsC1 : FS := [("f.txt", ⟨1, "c"⟩)]

/-- Two remote files; every local access at `a` raises. -/
def envC3x : Env :=
  { envBase with
    listing := [⟨"ia", "a", some "ta"⟩, ⟨"ib", "b", some "tb"⟩]
    statRaises := fun p => p == "a" }

/-- Environment whose local stat raises at `x` only. -/
def envC3w : Env := { envBase with statRaises := fun p => p == "x" }

/-- Local files `x` and `y`. -/
def fsC3 : FS := [("x", ⟨1, "cx"⟩), ("y", ⟨2, "cy"⟩)]

/-- Remote delete always reports failure. -/
def envC4x : Env := { envBase with deleteOk := fun _ => false }

/-- One tracked file with remote id `X`. -/
def stC4 : StateMap := [("f", ⟨some "X", none, none, none⟩)]

/-- Two remote files sharing the name `n` with different modification
    times. -/
def envC5x : Env :=
  { envBase with
    listing := [⟨"i1", "n", some "t1"⟩, ⟨"i2", "n", some "t2"⟩] }

/-- One remote file `a`, nothing local, nothing tracked. -/
def envC5w : Env := { envBase with listing := [⟨"i1", "a", some "t"⟩] }

/-- A local file at `p`. -/
def fsC9 : FS := [("p", ⟨1, "c"⟩)]

/-- `p` tracked by an empty record (no fields at all). -/
def stC9 : StateMap := [("p", emptyRec)]

/-- `p` tracked by a truthy record that lacks `drive_id`. -/
def stC9w : StateMap := [("p", ⟨none, some 5, none, none⟩)]

/-- A move event on a plain visible file. -/
def evC10 : FsEvent := ⟨false, "d/a.txt", "d/b.txt"⟩

/-!  Association-list lemmas. -/

theorem alookup_aset {β : Type} (l : List (String × β)) (p q : String) (v : β) :
    alookup (aset l p v) q = if p = q then some v else alookup l q := by
  induction l with
  | nil =>
    by_cases h : p = q <;> simp [aset, alookup, h]
  | cons e t ih =>
    obtain ⟨k, w⟩ := e
    by_cases hk : k = p
    · subst hk
      by_cases h : k = q <;> simp [aset, alookup, h]
    · simp only [aset, if_neg hk, alookup]
      by_cases h : k = q
      · subst h
        have : ¬ p = k := fun hpk => hk hpk.symm
        simp [alookup, this]
      · simp [alookup, h, ih]

theorem alookup_aerase_ne {β : Type} (l : List (String × β)) (p q : String)
    (h : q ≠ p) : alookup (aerase l p) q = alookup l q := by
  induction l with
  | nil => rfl
  | cons e t ih =>
    obtain ⟨k, w⟩ := e
    by_cases hk : k = p
    · subst hk
      have : ¬ (k = q) := fun hq => h (hq.symm ▸ rfl)
      simp [aerase, alookup, this]
    · simp only [aerase, if_neg hk, alookup]
      by_cases hq : k = q <;> simp [hq, ih]

theorem alookup_eq_none_iff {β : Type} (l : List (String × β)) (p : String) :
    alookup l p = none ↔ p ∉ l.map Prod.fst := by
  induction l with
  | nil => simp [alookup]
  | cons e t ih =>
    obtain ⟨k, w⟩ := e
    by_cases hk : k = p
    · subst hk
      simp [alookup]
    · have hpk : ¬ p = k := fun h => hk h.symm
      simp [alookup, hk, hpk, ih]

theorem alookup_aerase_self {β : Type} (l : List (String × β)) (p : String)
    (h : (l.map Prod.fst).Nodup) : alookup (aerase l p) p = none := by
  induction l with
  | nil => rfl
  | cons e t ih =>
    obtain ⟨k, w⟩ := e
    simp only [List.map_cons, List.nodup_cons] at h
    by_cases hk : k = p
    · subst hk
      simp only [aerase, if_pos rfl]
      exact (alookup_eq_none_iff t k).2 h.1
    · simp [aerase, hk, alookup, ih h.2]

theorem alookup_aerase_none {β : Type} (l : List (String × β)) (p q : String)
    (h : alookup l q = none) : alookup (aerase l p) q = none := by
  induction l with
  | nil => rfl
  | cons e t ih =>
    obtain ⟨k, w⟩ := e
    simp only [alookup] at h
    by_cases hq : k = q
    · simp [hq] at h
    · simp only [if_neg hq] at h
      by_cases hk : k = p
      · simpa [aerase, hk] using h
      · simp [aerase, hk, alookup, hq, ih h]

theorem keys_aerase_sublist {β : Type} (l : List (String × β)) (p : String) :
    List.Sublist ((aerase l p).map Prod.fst) (l.map Prod.fst) := by
  induction l with
  | nil => simp [aerase]
  | cons e t ih =>
    obtain ⟨k, w⟩ := e
    by_cases hk : k = p
    · simp only [aerase, if_pos hk, List.map_cons]
      exact List.sublist_cons_of_sublist _ (List.Sublist.refl _)
    · simp only [aerase, if_neg hk, List.map_cons]
      exact List.Sublist.cons₂ _ ih

theorem nodup_keys_aerase {β : Type} (l : List (String × β)) (p : String)
    (h : (l.map Prod.fst).Nodup) : ((aerase l p).map Prod.fst).Nodup :=
  (keys_aerase_sublist l p).nodup h

theorem keys_aset {β : Type} (l : List (String × β)) (p : String) (v : β) :
    (aset l p v).map Prod.fst =
      if p ∈ l.map Prod.fst then l.map Prod.fst
      else l.map Prod.fst ++ [p] := by
  induction l with
  | nil => simp [aset]
  | cons e t ih =>
    obtain ⟨k, w⟩ := e
    by_cases hk : k = p
    · subst hk
      simp [aset]
    · have hne : ¬ p = k := fun h => hk h.symm
      simp only [aset, if_neg hk, List.map_cons, ih, List.mem_cons, hne,
        false_or]
      by_cases hp : p ∈ t.map Prod.fst <;> simp [hp]

theorem nodup_keys_aset {β : Type} (l : List (String × β)) (p : String) (v : β)
    (h : (l.map Prod.fst).Nodup) : ((aset l p v).map Prod.fst).Nodup := by
  rw [keys_aset]
  by_cases hp : p ∈ l.map Prod.fst
  · simpa [hp] using h
  · simp [hp, List.nodup_append, h]

/-- C6: for every path and every combination of provided fields,
    `update_file_state(path, …)` followed by a fresh load of the
    persisted document reproduces the whole saved map — in particular,
    for that path, a record identical to the in-memory record at the
    moment of the save (the old record with exactly the provided fields
    merged in). -/
theorem c6_update_roundtrip (st : StateMap) (p : String) (d : Option String)
    (lm : Option Nat) (dm : Option String) (ck : Option String) :
    decodeState (encodeState (updateFileState st p d lm dm ck))
      = some (updateFileState st p d lm dm ck) ∧
    getFileState (updateFileState st p d lm dm ck) p
      = some (((alookup st p).getD emptyRec).applyFields d lm dm ck) := by
  refine ⟨decodeState_encodeState _, ?_⟩
  simp [getFileState, updateFileState, alookup_aset]

/-- C2, counterexample: after enqueuing `created`, `deleted`, `created`
    for path `a` in one cycle, the drained per-kind sets contain `a` in
    the `deleted` set — the claim that `deleted` is absent for that path
    is false (the per-kind sets coalesce duplicates but never cancel
    across kinds). -/
theorem c2_counterexample :
    "a" ∈ (drainAll (enqueue (enqueue (enqueue [] "created" "a")
      "deleted" "a") "created" "a")).1.1 := by decide

/-- C2, amended: enqueuing `created`, `deleted`, `created` for one path
    within one cycle and draining yields `created` present AND `deleted`
    present for that path; the drain processes the `deleted` set before
    the `created` set, so the later create is processed last and
    dominates. -/
theorem c2_amended (path : String) (env : Env) (fs : FS) (st : StateMap) :
    drainAll (enqueue (enqueue (enqueue [] "created" path) "deleted" path)
        "created" path)
      = (([path], [path], []), []) ∧
    processPendingChanges env
        (enqueue (enqueue (enqueue [] "created" path) "deleted" path)
          "created" path) fs st
      = ([],
         (syncLocalToDrive env (syncLocalToDrive env fs st path "deleted").1
            (syncLocalToDrive env fs st path "deleted").2.1 path "created").1,
         (syncLocalToDrive env (syncLocalToDrive env fs st path "deleted").1
            (syncLocalToDrive env fs st path "deleted").2.1 path
            "created").2.1,
         (syncLocalToDrive env fs st path "deleted").2.2 ++
           (syncLocalToDrive env (syncLocalToDrive env fs st path "deleted").1
              (syncLocalToDrive env fs st path "deleted").2.1 path
              "created").2.2) := by
  have h1 : ¬ ("created" : String) = "deleted" := by decide
  have h2 : ("deleted" : String) = "deleted" := rfl
  constructor
  · simp [drainAll, enqueue, addToSet, popKind, h1]
  · simp [processPendingChanges, processList, enqueue, addToSet, popKind, h1]

/-- C4, counterexample: a tracked record with remote id `X` receives a
    `deleted` event while the remote delete reports failure; the record
    is removed from the state anyway, so a failed remote delete is not
    retried. -/
theorem c4_counterexample :
    syncLocalToDrive envC4x [] stC4 "f" "deleted"
      = ([], [], [.deleteRemote "X" false, .save []]) ∧
    envC4x.deleteOk "X" = false := by
  exact ⟨rfl, rfl⟩

/-- C4, amended: when a `deleted` event is pushed for a path whose
    truthy record carries a truthy `drive_id` and the remote delete call
    returns (rather than raising), the record is removed from the state
    regardless of whether the remote delete reported success — the
    return value of `delete_file` is ignored. -/
theorem c4_amended (env : Env) (fs : FS) (st : StateMap) (p : String)
    (r : FileRec) (i : String) (hget : alookup st p = some r)
    (htr : r.truthy) (hid : r.drive_id = some i) (hne : i ≠ "")
    (hraise : env.deleteRaises i = false) :
    syncLocalToDrive env fs st p "deleted" =
      (fs, removeFileState st p,
        [.deleteRemote i (env.deleteOk i), .save (removeFileState st p)]) := by
  have hcond : r.truthy ∧ strTruthy r.drive_id :=
    ⟨htr, by simpa [strTruthy, hid] using hne⟩
  simp [syncLocalToDrive, hget, hcond, hid, hraise, hne]

/-- C4, witness: the amended statement applied to the concrete world of
    the counterexample — the remote delete fails, the record is still
    removed. -/
theorem c4_witness :
    syncLocalToDrive envC4x [] stC4 "f" "deleted"
      = ([], removeFileState stC4 "f",
          [.deleteRemote "X" (envC4x.deleteOk "X"),
           .save (removeFileState stC4 "f")]) :=
  c4_amended envC4x [] stC4 "f" ⟨some "X", none, none, none⟩ "X" rfl
    (by decide) rfl (by decide) rfl

/-- C9, counterexample: a tracked record that lacks `drive_id` because
    it is the empty record is NOT treated as remotely deleted — the
    `if state and …` truthiness guard skips it, so the local file stays
    and the record survives the pull pass, contradicting the claim for
    "every tracked record that lacks a drive_id field". -/
theorem c9_counterexample :
    syncDriveToLocal envBase fsC9 stC9 = (fsC9, stC9, []) ∧
    getFileState stC9 "p" = some emptyRec ∧
    emptyRec.drive_id = none ∧ existsFS fsC9 "p" = true := by decide

/-- C1, counterexample: with `f.txt` present both remotely and locally
    and an empty sync state (the freshly-cloned scenario), `initial_sync`
    performs a create-upload for `f.txt` — the pull pass neither
    downloads nor records a file that already exists locally, so the
    local pass re-uploads it as a duplicate. -/
theorem c1_counterexample :
    hasCreateFor "f.txt" (initialSync envC1 fsC1 []).2.2 = true ∧
    (∃ f ∈ envC1.listing, f.name = "f.txt") ∧
    existsFS fsC1 "f.txt" = true := by decide

/-- C3, counterexample: in the pull pass, a raise while processing the
    first remote file (a local stat failure after its download) aborts
    the whole pass: the second remote file, although absent locally and
    downloadable, is never downloaded and gains no record — the pass
    does not continue with the next file. -/
theorem c3_counterexample :
    syncDriveToLocal envC3x [] [] =
      ([("a", ⟨7, "dl"⟩)], [], [.download "ia" "a" true, .pullError]) ∧
    Op.download "ib" "b" true ∉ (syncDriveToLocal envC3x [] []).2.2 ∧
    getFileState (syncDriveToLocal envC3x [] []).2.1 "b" = none ∧
    existsFS (syncDriveToLocal envC3x [] []).1 "b" = false ∧
    envC3x.downloadOk "ib" = true := by decide

/-- C5, counterexample: two remote files sharing one name (the remote
    store allows duplicate names; the engine keys local paths by name
    alone): a second pull pass, with nothing changed in between,
    performs downloads again — the pull pass is not idempotent. -/
theorem c5_counterexample :
    hasDownload (syncDriveToLocal envC5x
      (syncDriveToLocal envC5x [] []).1
      (syncDriveToLocal envC5x [] []).2.1).2.2 = true := by decide

/-- C10: for every move event on a non-directory source path that is
    not ignored, the monitor delivers exactly two callbacks in order —
    `deleted` with the source path, then `created` with the destination
    path; no `moved` kind is ever emitted. -/
theorem c10_moved_two_callbacks (ev : FsEvent) (hdir : ev.isDirectory = false)
    (hig : shouldIgnore ev.srcPath = false) :
    onMoved ev = [("deleted", ev.srcPath), ("created", ev.destPath)] := by
  simp [onMoved, hdir, hig]

/-- C10, witness: a concrete move of `d/a.txt` to `d/b.txt`. -/
theorem c10_witness :
    evC10.isDirectory = false ∧ shouldIgnore evC10.srcPath = false ∧
    onMoved evC10 = [("deleted", "d/a.txt"), ("created", "d/b.txt")] :=
  ⟨rfl, by decide, c10_moved_two_callbacks evC10 rfl (by decide)⟩

/-!  Structural lemmas about the engine's building blocks. -/

theorem syncLocalToDrive_fs (env : Env) (fs : FS) (st : StateMap) (p : String)
    (ev : String) : (syncLocalToDrive env fs st p ev).1 = fs := by
  unfold syncLocalToDrive
  repeat' (first | split | dsimp only)

theorem syncLocalToDrive_st_ne (env : Env) (fs : FS) (st : StateMap)
    (p q : String) (ev : String) (hne : p ≠ q) :
    alookup (syncLocalToDrive env fs st p ev).2.1 q = alookup st q := by
  have hqp : q ≠ p := fun h => hne h.symm
  unfold syncLocalToDrive
  repeat' (first | split | dsimp only)
  all_goals
    simp [removeFileState, updateFileState, alookup_aset, hne,
      alookup_aerase_ne st p q hqp]

theorem syncLocalToDrive_nodup (env : Env) (fs : FS) (st : StateMap)
    (p : String) (ev : String) (h : (st.map Prod.fst).Nodup) :
    (((syncLocalToDrive env fs st p ev).2.1).map Prod.fst).Nodup := by
  unfold syncLocalToDrive
  repeat' (first | split | dsimp only)
  all_goals
    simp [removeFileState, updateFileState, nodup_keys_aset,
      nodup_keys_aerase, h]

theorem syncLocalToDrive_noCreate (env : Env) (fs : FS) (st : StateMap)
    (p q : String) (ev : String) (hne : p ≠ q) :
    hasCreateFor q (syncLocalToDrive env fs st p ev).2.2 = false := by
  have hbeq : (p == q) = false := beq_eq_false_iff_ne.2 hne
  unfold syncLocalToDrive
  repeat' (first | split | dsimp only)
  all_goals simp [hasCreateFor, hbeq]

/-- Appending traces distributes over `processList`'s accumulator. -/
theorem processList_shift (env : Env) (l : List String) (ev : String)
    (fs : FS) (st : StateMap) (ops : List Op) :
    processList env l ev (fs, st, ops) =
      ((processList env l ev (fs, st, [])).1,
       (processList env l ev (fs, st, [])).2.1,
       ops ++ (processList env l ev (fs, st, [])).2.2) := by
  induction l generalizing fs st ops with
  | nil => simp [processList]
  | cons p t ih =>
    simp only [processList]
    rw [ih (syncLocalToDrive env fs st p ev).1
        (syncLocalToDrive env fs st p ev).2.1
        (ops ++ (syncLocalToDrive env fs st p ev).2.2),
      ih (syncLocalToDrive env fs st p ev).1
        (syncLocalToDrive env fs st p ev).2.1
        ([] ++ (syncLocalToDrive env fs st p ev).2.2)]
    simp

/-!  `pullStep` lemmas. -/

theorem pullStep_raised (env : Env) (fs : FS) (st : StateMap) (ops : List Op)
    (f : DriveFile) (hst : env.statRaises f.name = false)
    (hck : env.checksumRaises f.name = false) :
    (pullStep env fs st ops f).2 = false := by
  unfold pullStep
  split_ifs <;> simp_all

theorem pullStep_st_ne (env : Env) (fs : FS) (st : StateMap) (ops : List Op)
    (f : DriveFile) (q : String) (hne : f.name ≠ q) :
    alookup (pullStep env fs st ops f).1.2.1 q = alookup st q := by
  unfold pullStep
  split_ifs <;> simp [updateFileState, alookup_aset, hne]

theorem pullStep_fs_ne (env : Env) (fs : FS) (st : StateMap) (ops : List Op)
    (f : DriveFile) (q : String) (hne : f.name ≠ q) :
    alookup (pullStep env fs st ops f).1.1 q = alookup fs q := by
  unfold pullStep
  split_ifs <;> simp [alookup_aset, hne]

theorem pullStep_fs_mono (env : Env) (fs : FS) (st : StateMap) (ops : List Op)
    (f : DriveFile) (q : String) (h : existsFS fs q = true) :
    existsFS (pullStep env fs st ops f).1.1 q = true := by
  unfold pullStep
  split_ifs <;> simp_all [existsFS, alookup_aset] <;>
    by_cases hq : f.name = q <;> simp_all

theorem pullStep_nodup (env : Env) (fs : FS) (st : StateMap) (ops : List Op)
    (f : DriveFile) (h : (st.map Prod.fst).Nodup) :
    (((pullStep env fs st ops f).1.2.1).map Prod.fst).Nodup := by
  unfold pullStep
  split_ifs <;> simp [updateFileState, nodup_keys_aset, h]

theorem pullStep_mem_ops (env : Env) (fs : FS) (st : StateMap) (ops : List Op)
    (f : DriveFile) (o : Op) (h : o ∈ ops) :
    o ∈ (pullStep env fs st ops f).1.2.2 := by
  unfold pullStep
  split_ifs <;> simp [h]

theorem pullStep_noCreate (env : Env) (fs : FS) (st : StateMap) (ops : List Op)
    (f : DriveFile) (q : String) (h : hasCreateFor q ops = false) :
    hasCreateFor q (pullStep env fs st ops f).1.2.2 = false := by
  unfold pullStep
  split_ifs <;> simp_all [hasCreateFor, List.any_append]

/-!  `pullLoop` lemmas. -/

theorem pullLoop_raised (env : Env) (l : List DriveFile)
    (acc : FS × StateMap × List Op)
    (h : ∀ f ∈ l, env.statRaises f.name = false ∧
      env.checksumRaises f.name = false) :
    (pullLoop env l acc).2 = false := by
  induction l generalizing acc with
  | nil => rfl
  | cons f t ih =>
    have hf := h f (List.mem_cons_self f t)
    have hr : (pullStep env acc.1 acc.2.1 acc.2.2 f).2 = false :=
      pullStep_raised env _ _ _ f hf.1 hf.2
    simp only [pullLoop, hr, Bool.false_eq_true, if_false]
    exact ih _ (fun g hg => h g (List.mem_cons_of_mem f hg))

theorem pullLoop_st_ne (env : Env) (l : List DriveFile)
    (acc : FS × StateMap × List Op) (q : String)
    (h : ∀ f ∈ l, f.name ≠ q) :
    alookup (pullLoop env l acc).1.2.1 q = alookup acc.2.1 q := by
  induction l generalizing acc with
  | nil => rfl
  | cons f t ih =>
    have hf := h f (List.mem_cons_self f t)
    simp only [pullLoop]
    by_cases hr : (pullStep env acc.1 acc.2.1 acc.2.2 f).2 = true
    · rw [if_pos hr]
      exact pullStep_st_ne env _ _ _ f q hf
    · rw [if_neg hr]
      rw [ih _ (fun g hg => h g (List.mem_cons_of_mem f hg))]
      exact pullStep_st_ne env _ _ _ f q hf

theorem pullLoop_fs_ne (env : Env) (l : List DriveFile)
    (acc : FS × StateMap × List Op) (q : String)
    (h : ∀ f ∈ l, f.name ≠ q) :
    alookup (pullLoop env l acc).1.1 q = alookup acc.1 q := by
  induction l generalizing acc with
  | nil => rfl
  | cons f t ih =>
    have hf := h f (List.mem_cons_self f t)
    simp only [pullLoop]
    by_cases hr : (pullStep env acc.1 acc.2.1 acc.2.2 f).2 = true
    · rw [if_pos hr]
      exact pullStep_fs_ne env _ _ _ f q hf
    · rw [if_neg hr]
      rw [ih _ (fun g hg => h g (List.mem_cons_of_mem f hg))]
      exact pullStep_fs_ne env _ _ _ f q hf

theorem pullLoop_fs_mono (env : Env) (l : List DriveFile)
    (acc : FS × StateMap × List Op) (q : String)
    (h : existsFS acc.1 q = true) :
    existsFS (pullLoop env l acc).1.1 q = true := by
  induction l generalizing acc with
  | nil => exact h
  | cons f t ih =>
    simp only [pullLoop]
    by_cases hr : (pullStep env acc.1 acc.2.1 acc.2.2 f).2 = true
    · rw [if_pos hr]
      exact pullStep_fs_mono env _ _ _ f q h
    · rw [if_neg hr]
      exact ih _ (pullStep_fs_mono env _ _ _ f q h)

theorem pullLoop_nodup (env : Env) (l : List DriveFile)
    (acc : FS × StateMap × List Op)
    (h : ((acc.2.1).map Prod.fst).Nodup) :
    (((pullLoop env l acc).1.2.1).map Prod.fst).Nodup := by
  induction l generalizing acc with
  | nil => exact h
  | cons f t ih =>
    simp only [pullLoop]
    by_cases hr : (pullStep env acc.1 acc.2.1 acc.2.2 f).2 = true
    · rw [if_pos hr]
      exact pullStep_nodup env _ _ _ f h
    · rw [if_neg hr]
      exact ih _ (pullStep_nodup env _ _ _ f h)

theorem pullLoop_mem_ops (env : Env) (l : List DriveFile)
    (acc : FS × StateMap × List Op) (o : Op) (h : o ∈ acc.2.2) :
    o ∈ (pullLoop env l acc).1.2.2 := by
  induction l generalizing acc with
  | nil => exact h
  | cons f t ih =>
    simp only [pullLoop]
    by_cases hr : (pullStep env acc.1 acc.2.1 acc.2.2 f).2 = true
    · rw [if_pos hr]
      exact pullStep_mem_ops env _ _ _ f o h
    · rw [if_neg hr]
      exact ih _ (pullStep_mem_ops env _ _ _ f o h)

theorem pullLoop_noCreate (env : Env) (l : List DriveFile)
    (acc : FS × StateMap × List Op) (q : String)
    (h : hasCreateFor q acc.2.2 = false) :
    hasCreateFor q (pullLoop env l acc).1.2.2 = false := by
  induction l generalizing acc with
  | nil => exact h
  | cons f t ih =>
    simp only [pullLoop]
    by_cases hr : (pullStep env acc.1 acc.2.1 acc.2.2 f).2 = true
    · rw [if_pos hr]
      exact pullStep_noCreate env _ _ _ f q h
    · rw [if_neg hr]
      exact ih _ (pullStep_noCreate env _ _ _ f q h)

/-!  `delStep` lemmas. -/

theorem delStep_raised (env : Env) (ids : List String) (fs : FS)
    (st : StateMap) (ops : List Op) (p : String)
    (hunl : env.unlinkRaises p = false) :
    (delStep env ids fs st ops p).2 = false := by
  unfold delStep
  repeat' (first | split | dsimp only)
  all_goals simp_all

theorem delStep_st_ne (env : Env) (ids : List String) (fs : FS)
    (st : StateMap) (ops : List Op) (p q : String) (hq : q ≠ p) :
    alookup (delStep env ids fs st ops p).1.2.1 q = alookup st q := by
  unfold delStep
  repeat' (first | split | dsimp only)
  all_goals simp [removeFileState, alookup_aerase_ne st p q hq]

theorem delStep_st_none (env : Env) (ids : List String) (fs : FS)
    (st : StateMap) (ops : List Op) (p q : String)
    (h : alookup st q = none) :
    alookup (delStep env ids fs st ops p).1.2.1 q = none := by
  unfold delStep
  repeat' (first | split | dsimp only)
  all_goals simp [removeFileState, alookup_aerase_none st p q h, h]

theorem delStep_fs_ne (env : Env) (ids : List String) (fs : FS)
    (st : StateMap) (ops : List Op) (p q : String) (hq : q ≠ p) :
    alookup (delStep env ids fs st ops p).1.1 q = alookup fs q := by
  unfold delStep
  repeat' (first | split | dsimp only)
  all_goals simp [alookup_aerase_ne fs p q hq]

theorem delStep_nodup (env : Env) (ids : List String) (fs : FS)
    (st : StateMap) (ops : List Op) (p : String)
    (h : (st.map Prod.fst).Nodup) :
    (((delStep env ids fs st ops p).1.2.1).map Prod.fst).Nodup := by
  unfold delStep
  repeat' (first | split | dsimp only)
  all_goals simp [removeFileState, nodup_keys_aerase st p h, h]

theorem delStep_mem_ops (env : Env) (ids : List String) (fs : FS)
    (st : StateMap) (ops : List Op) (p : String) (o : Op) (h : o ∈ ops) :
    o ∈ (delStep env ids fs st ops p).1.2.2 := by
  unfold delStep
  repeat' (first | split | dsimp only)
  all_goals simp [h]

theorem delStep_noCreate (env : Env) (ids : List String) (fs : FS)
    (st : StateMap) (ops : List Op) (p q : String)
    (h : hasCreateFor q ops = false) :
    hasCreateFor q (delStep env ids fs st ops p).1.2.2 = false := by
  unfold delStep
  repeat' (first | split | dsimp only)
  all_goals simp_all [hasCreateFor, List.any_append]

theorem delStep_self (env : Env) (ids : List String) (fs : FS)
    (st : StateMap) (ops : List Op) (p : String) (r : FileRec)
    (hget : alookup st p = some r) (htr : r.truthy)
    (hnone : r.drive_id = none) (hunl : env.unlinkRaises p = false)
    (hnd : (st.map Prod.fst).Nodup) :
    alookup (delStep env ids fs st ops p).1.2.1 p = none ∧
    (existsFS fs p = true → Op.unlinkLocal p ∈ (delStep env ids fs st ops p).1.2.2) ∧
    (delStep env ids fs st ops p).2 = false := by
  have hcond : r.truthy ∧ r.drive_id ∉ ids.map some := by
    refine ⟨htr, ?_⟩
    rw [hnone]
    simp
  unfold delStep
  rw [hget]
  dsimp only
  rw [if_pos hcond]
  by_cases hfs : existsFS fs p = true
  · rw [if_pos hfs]
    have hnr : ¬ env.unlinkRaises p = true := by simp [hunl]
    rw [if_neg hnr]
    refine ⟨alookup_aerase_self st p hnd, fun _ => ?_, rfl⟩
    simp
  · rw [if_neg hfs]
    exact ⟨alookup_aerase_self st p hnd, fun h => absurd h hfs, rfl⟩

/-!  `delLoop` lemmas. -/

theorem delLoop_raised (env : Env) (ids : List String) (l : List String)
    (acc : FS × StateMap × List Op)
    (hunl : ∀ x, env.unlinkRaises x = false) :
    (delLoop env ids l acc).2 = false := by
  induction l generalizing acc with
  | nil => rfl
  | cons p t ih =>
    have hr : (delStep env ids acc.1 acc.2.1 acc.2.2 p).2 = false :=
      delStep_raised env ids _ _ _ p (hunl p)
    simp only [delLoop, hr, Bool.false_eq_true, if_false]
    exact ih _

theorem delLoop_st_none (env : Env) (ids : List String) (l : List String)
    (acc : FS × StateMap × List Op) (q : String)
    (h : alookup acc.2.1 q = none) :
    alookup (delLoop env ids l acc).1.2.1 q = none := by
  induction l generalizing acc with
  | nil => exact h
  | cons p t ih =>
    simp only [delLoop]
    by_cases hr : (delStep env ids acc.1 acc.2.1 acc.2.2 p).2 = true
    · rw [if_pos hr]
      exact delStep_st_none env ids _ _ _ p q h
    · rw [if_neg hr]
      exact ih _ (delStep_st_none env ids _ _ _ p q h)

theorem delLoop_mem_ops (env : Env) (ids : List String) (l : List String)
    (acc : FS × StateMap × List Op) (o : Op) (h : o ∈ acc.2.2) :
    o ∈ (delLoop env ids l acc).1.2.2 := by
  induction l generalizing acc with
  | nil => exact h
  | cons p t ih =>
    simp only [delLoop]
    by_cases hr : (delStep env ids acc.1 acc.2.1 acc.2.2 p).2 = true
    · rw [if_pos hr]
      exact delStep_mem_ops env ids _ _ _ p o h
    · rw [if_neg hr]
      exact ih _ (delStep_mem_ops env ids _ _ _ p o h)

theorem delLoop_noCreate (env : Env) (ids : List String) (l : List String)
    (acc : FS × StateMap × List Op) (q : String)
    (h : hasCreateFor q acc.2.2 = false) :
    hasCreateFor q (delLoop env ids l acc).1.2.2 = false := by
  induction l generalizing acc with
  | nil => exact h
  | cons p t ih =>
    simp only [delLoop]
    by_cases hr : (delStep env ids acc.1 acc.2.1 acc.2.2 p).2 = true
    · rw [if_pos hr]
      exact delStep_noCreate env ids _ _ _ p q h
    · rw [if_neg hr]
      exact ih _ (delStep_noCreate env ids _ _ _ p q h)

theorem delLoop_removes (env : Env) (ids : List String) (l : List String)
    (acc : FS × StateMap × List Op) (p : String) (r : FileRec)
    (hunl : ∀ x, env.unlinkRaises x = false) (hmem : p ∈ l)
    (hnd : ((acc.2.1).map Prod.fst).Nodup)
    (hget : alookup acc.2.1 p = some r) (htr : r.truthy)
    (hnone : r.drive_id = none) :
    alookup (delLoop env ids l acc).1.2.1 p = none ∧
    (existsFS acc.1 p = true → Op.unlinkLocal p ∈ (delLoop env ids l acc).1.2.2) := by
  induction l generalizing acc with
  | nil => cases hmem
  | cons q t ih =>
    have hr : (delStep env ids acc.1 acc.2.1 acc.2.2 q).2 = false :=
      delStep_raised env ids _ _ _ q (hunl q)
    simp only [delLoop, hr, Bool.false_eq_true, if_false]
    by_cases hpq : q = p
    · subst hpq
      obtain ⟨h1, h2, _⟩ :=
        delStep_self env ids acc.1 acc.2.1 acc.2.2 q r hget htr hnone
          (hunl q) hnd
      refine ⟨delLoop_st_none env ids t _ q h1, fun hfs => ?_⟩
      exact delLoop_mem_ops env ids t _ _ (h2 hfs)
    · have hnew_get :
          alookup (delStep env ids acc.1 acc.2.1 acc.2.2 q).1.2.1 p = some r := by
        rw [delStep_st_ne env ids _ _ _ q p (fun h => hpq h.symm)]
        exact hget
      have hmem' : p ∈ t := by
        rcases List.mem_cons.1 hmem with h | h
        · exact absurd h.symm hpq
        · exact h
      obtain ⟨h1, h2⟩ := ih _ hmem'
        (delStep_nodup env ids _ _ _ q hnd) hnew_get
      refine ⟨h1, fun hfs => ?_⟩
      apply h2
      rw [existsFS, delStep_fs_ne env ids _ _ _ q p (fun h => hpq h.symm)]
      exact hfs

/-- C3, amended: in the push path, a file whose processing raises (here:
    the stat after a successful upload) has its error caught inside
    `_sync_local_to_drive` and logged, its state is left untouched, and
    the remaining files of the pass are processed exactly as they would
    have been without it — push-side per-file isolation holds. -/
theorem c3_amended (env : Env) (fs : FS) (st : StateMap) (ev : String)
    (t : List String) (p : String) (hev : ev ≠ "deleted")
    (hex : existsFS fs p = true)
    (hup : strTruthy (env.upload p (pushDriveIdArg st p)))
    (hraise : env.statRaises p = true) :
    Op.pushError p ∈ (syncLocalToDrive env fs st p ev).2.2 ∧
    processList env (p :: t) ev (fs, st, []) =
      ((processList env t ev (fs, st, [])).1,
       (processList env t ev (fs, st, [])).2.1,
       (syncLocalToDrive env fs st p ev).2.2 ++
         (processList env t ev (fs, st, [])).2.2) := by
  have ha : syncLocalToDrive env fs st p ev
      = (fs, st,
         [(if strTruthy (pushDriveIdArg st p) then
             Op.uploadUpdate ((pushDriveIdArg st p).getD "") p
               (env.upload p (pushDriveIdArg st p))
           else Op.uploadCreate p (env.upload p (pushDriveIdArg st p))),
          Op.pushError p]) := by
    simp [syncLocalToDrive, hev, hex, hup, hraise]
  constructor
  · rw [ha]
    simp
  · simp only [processList, ha]
    rw [processList_shift]
    simp

/-- C3, witness: concrete push pass over `x` then `y`, where `x`'s stat
    raises; `y` is still processed and `x`'s failure is logged. -/
theorem c3_witness :
    Op.pushError "x" ∈ (syncLocalToDrive envC3w fsC3 [] "x" "created").2.2 ∧
    processList envC3w ["x", "y"] "created" (fsC3, [], []) =
      ((processList envC3w ["y"] "created" (fsC3, [], [])).1,
       (processList envC3w ["y"] "created" (fsC3, [], [])).2.1,
       (syncLocalToDrive envC3w fsC3 [] "x" "created").2.2 ++
         (processList envC3w ["y"] "created" (fsC3, [], [])).2.2) :=
  c3_amended envC3w fsC3 [] "created" ["y"] "x" (by decide) (by decide)
    (by decide) rfl

/-- C9, amended: during the pull pass, a TRUTHY (non-empty) tracked
    record that lacks a `drive_id` field is treated as remotely deleted:
    provided its path is not also a current remote name and no local
    access raises, the record is removed from the state and the local
    file, if it exists, is unlinked. -/
theorem c9_amended (env : Env) (fs : FS) (st : StateMap) (p : String)
    (r : FileRec)
    (hstR : ∀ q, env.statRaises q = false)
    (hckR : ∀ q, env.checksumRaises q = false)
    (hunl : ∀ q, env.unlinkRaises q = false)
    (hnol : ∀ f ∈ env.listing, f.name ≠ p)
    (hnd : (st.map Prod.fst).Nodup)
    (hget : alookup st p = some r) (htr : r.truthy)
    (hnone : r.drive_id = none) :
    getFileState (syncDriveToLocal env fs st).2.1 p = none ∧
    (existsFS fs p = true →
      Op.unlinkLocal p ∈ (syncDriveToLocal env fs st).2.2) := by
  have hraise : (pullLoop env env.listing (fs, st, [])).2 = false :=
    pullLoop_raised env env.listing _ (fun f _ => ⟨hstR f.name, hckR f.name⟩)
  have hget1 : alookup (pullLoop env env.listing (fs, st, [])).1.2.1 p
      = some r := by
    rw [pullLoop_st_ne env env.listing _ p hnol]
    exact hget
  have hnd1 : (((pullLoop env env.listing (fs, st, [])).1.2.1).map
      Prod.fst).Nodup := pullLoop_nodup env _ _ hnd
  have hfs1 : alookup (pullLoop env env.listing (fs, st, [])).1.1 p
      = alookup fs p := pullLoop_fs_ne env env.listing _ p hnol
  have hmem : p ∈ ((pullLoop env env.listing (fs, st, [])).1.2.1).map
      Prod.fst := by
    by_contra hc
    have hnone' := (alookup_eq_none_iff
      ((pullLoop env env.listing (fs, st, [])).1.2.1) p).2 hc
    simp [hnone'] at hget1
  have hdel := delLoop_removes env (listingIds env)
    (((pullLoop env env.listing (fs, st, [])).1.2.1).map Prod.fst)
    (pullLoop env env.listing (fs, st, [])).1 p r hunl hmem hnd1 hget1 htr
    hnone
  have hr2 : (delLoop env (listingIds env)
      (((pullLoop env env.listing (fs, st, [])).1.2.1).map Prod.fst)
      (pullLoop env env.listing (fs, st, [])).1).2 = false :=
    delLoop_raised env _ _ _ hunl
  unfold syncDriveToLocal
  dsimp only
  rw [if_neg (by simp [hraise]), if_neg (by simp [hr2])]
  refine ⟨hdel.1, fun hfs => ?_⟩
  apply hdel.2
  rw [existsFS, hfs1]
  exact hfs

/-- C9, witness: a truthy record at `p` with no `drive_id`, a local file
    at `p`, an empty remote listing: the pull pass removes the record
    and unlinks the file. -/
theorem c9_witness :
    getFileState (syncDriveToLocal envBase fsC9 stC9w).2.1 "p" = none ∧
    (existsFS fsC9 "p" = true →
      Op.unlinkLocal "p" ∈ (syncDriveToLocal envBase fsC9 stC9w).2.2) :=
  c9_amended envBase fsC9 stC9w "p" ⟨none, some 5, none, none⟩
    (fun _ => rfl) (fun _ => rfl) (fun _ => rfl)
    (by intro f hf; simp [envBase] at hf) (by decide) rfl (by decide) rfl

/-!  The `drive_id` invariant (C7). -/

theorem strTruthy_isSome (o : Option String) (h : strTruthy o) :
    o.isSome = true := by
  cases o with
  | none => simp [strTruthy] at h
  | some s => rfl

theorem mergeOpt_isSome {α : Type} (d o : Option α) (hd : d.isSome = true) :
    (mergeOpt d o).isSome = true := by
  cases d with
  | none => simp at hd
  | some v => rfl

theorem entries_aerase_sublist {β : Type} (l : List (String × β))
    (p : String) : List.Sublist (aerase l p) l := by
  induction l with
  | nil => simp [aerase]
  | cons e t ih =>
    obtain ⟨k, w⟩ := e
    by_cases hk : k = p
    · simp only [aerase, if_pos hk]
      exact List.sublist_cons_of_sublist _ (List.Sublist.refl _)
    · simp only [aerase, if_neg hk]
      exact List.Sublist.cons₂ _ ih

theorem allDriveId_iff (st : StateMap) :
    allDriveId st = true ↔ ∀ e ∈ st, e.2.drive_id.isSome = true := by
  simp [allDriveId, List.all_eq_true]

theorem allDriveId_aerase (st : StateMap) (p : String)
    (h : allDriveId st = true) : allDriveId (aerase st p) = true := by
  rw [allDriveId_iff] at h ⊢
  exact fun e he => h e ((entries_aerase_sublist st p).subset he)

theorem mem_aset {β : Type} (l : List (String × β)) (p : String) (v : β)
    (e : String × β) (he : e ∈ aset l p v) : e ∈ l ∨ e = (p, v) := by
  induction l with
  | nil =>
    simp [aset] at he
    exact Or.inr he
  | cons g t ih =>
    obtain ⟨k, w⟩ := g
    by_cases hk : k = p
    · simp only [aset, if_pos hk] at he
      rcases List.mem_cons.1 he with h1 | h1
      · exact Or.inr (by rw [h1, hk])
      · exact Or.inl (List.mem_cons_of_mem _ h1)
    · simp only [aset, if_neg hk] at he
      rcases List.mem_cons.1 he with h1 | h1
      · exact Or.inl (by rw [h1]; exact List.mem_cons_self _ _)
      · rcases ih h1 with h2 | h2
        · exact Or.inl (List.mem_cons_of_mem _ h2)
        · exact Or.inr h2

theorem allDriveId_aset (st : StateMap) (p : String) (v : FileRec)
    (h : allDriveId st = true) (hv : v.drive_id.isSome = true) :
    allDriveId (aset st p v) = true := by
  rw [allDriveId_iff] at h ⊢
  intro e he
  rcases mem_aset st p v e he with h1 | h1
  · exact h e h1
  · rw [h1]
    exact hv

theorem allDriveId_update (st : StateMap) (p : String) (d : Option String)
    (lm : Option Nat) (dm : Option String) (ck : Option String)
    (h : allDriveId st = true) (hd : d.isSome = true) :
    allDriveId (updateFileState st p d lm dm ck) = true := by
  apply allDriveId_aset _ _ _ h
  exact mergeOpt_isSome d _ hd

theorem savesAllDriveId_append (a b : List Op) :
    savesAllDriveId (a ++ b)
      = (savesAllDriveId a && savesAllDriveId b) := by
  simp [savesAllDriveId]

theorem push_invariant (env : Env) (fs : FS) (st : StateMap) (p : String)
    (ev : String) (h : allDriveId st = true) :
    allDriveId (syncLocalToDrive env fs st p ev).2.1 = true ∧
    savesAllDriveId (syncLocalToDrive env fs st p ev).2.2 = true := by
  unfold syncLocalToDrive
  repeat' (first | split | dsimp only)
  all_goals
    simp_all [savesAllDriveId, removeFileState, allDriveId_aerase,
      allDriveId_update, strTruthy_isSome]

theorem pullStep_invariant (env : Env) (fs : FS) (st : StateMap)
    (ops : List Op) (f : DriveFile) (h : allDriveId st = true)
    (hops : savesAllDriveId ops = true) :
    allDriveId (pullStep env fs st ops f).1.2.1 = true ∧
    savesAllDriveId (pullStep env fs st ops f).1.2.2 = true := by
  unfold pullStep
  repeat' (first | split | dsimp only)
  all_goals
    simp_all [savesAllDriveId, List.all_append, allDriveId_update]

theorem pullLoop_invariant (env : Env) (l : List DriveFile)
    (acc : FS × StateMap × List Op) (h : allDriveId acc.2.1 = true)
    (hops : savesAllDriveId acc.2.2 = true) :
    allDriveId (pullLoop env l acc).1.2.1 = true ∧
    savesAllDriveId (pullLoop env l acc).1.2.2 = true := by
  induction l generalizing acc with
  | nil => exact ⟨h, hops⟩
  | cons f t ih =>
    have hs := pullStep_invariant env acc.1 acc.2.1 acc.2.2 f h hops
    simp only [pullLoop]
    by_cases hr : (pullStep env acc.1 acc.2.1 acc.2.2 f).2 = true
    · rw [if_pos hr]
      exact hs
    · rw [if_neg hr]
      exact ih _ hs.1 hs.2

theorem delStep_invariant (env : Env) (ids : List String) (fs : FS)
    (st : StateMap) (ops : List Op) (p : String)
    (h : allDriveId st = true) (hops : savesAllDriveId ops = true) :
    allDriveId (delStep env ids fs st ops p).1.2.1 = true ∧
    savesAllDriveId (delStep env ids fs st ops p).1.2.2 = true := by
  unfold delStep
  repeat' (first | split | dsimp only)
  all_goals
    simp_all [savesAllDriveId, List.all_append, removeFileState,
      allDriveId_aerase]

theorem delLoop_invariant (env : Env) (ids : List String) (l : List String)
    (acc : FS × StateMap × List Op) (h : allDriveId acc.2.1 = true)
    (hops : savesAllDriveId acc.2.2 = true) :
    allDriveId (delLoop env ids l acc).1.2.1 = true ∧
    savesAllDriveId (delLoop env ids l acc).1.2.2 = true := by
  induction l generalizing acc with
  | nil => exact ⟨h, hops⟩
  | cons p t ih =>
    have hs := delStep_invariant env ids acc.1 acc.2.1 acc.2.2 p h hops
    simp only [delLoop]
    by_cases hr : (delStep env ids acc.1 acc.2.1 acc.2.2 p).2 = true
    · rw [if_pos hr]
      exact hs
    · rw [if_neg hr]
      exact ih _ hs.1 hs.2

theorem pull_invariant (env : Env) (fs : FS) (st : StateMap)
    (h : allDriveId st = true) :
    allDriveId (syncDriveToLocal env fs st).2.1 = true ∧
    savesAllDriveId (syncDriveToLocal env fs st).2.2 = true := by
  have h1 := pullLoop_invariant env env.listing (fs, st, []) h rfl
  unfold syncDriveToLocal
  dsimp only
  by_cases hr : (pullLoop env env.listing (fs, st, [])).2 = true
  · rw [if_pos hr]
    refine ⟨h1.1, ?_⟩
    rw [savesAllDriveId_append, h1.2]
    rfl
  · rw [if_neg hr]
    have h2 := delLoop_invariant env (listingIds env)
      (((pullLoop env env.listing (fs, st, [])).1.2.1).map Prod.fst)
      (pullLoop env env.listing (fs, st, [])).1 h1.1 h1.2
    by_cases hr2 : (delLoop env (listingIds env)
        (((pullLoop env env.listing (fs, st, [])).1.2.1).map Prod.fst)
        (pullLoop env env.listing (fs, st, [])).1).2 = true
    · rw [if_pos hr2]
      refine ⟨h2.1, ?_⟩
      rw [savesAllDriveId_append, h2.2]
      rfl
    · rw [if_neg hr2]
      exact h2

theorem processList_invariant (env : Env) (l : List String) (ev : String)
    (acc : FS × StateMap × List Op) (h : allDriveId acc.2.1 = true)
    (hops : savesAllDriveId acc.2.2 = true) :
    allDriveId (processList env l ev acc).2.1 = true ∧
    savesAllDriveId (processList env l ev acc).2.2 = true := by
  induction l generalizing acc with
  | nil => exact ⟨h, hops⟩
  | cons p t ih =>
    simp only [processList]
    have hs := push_invariant env acc.1 acc.2.1 p ev h
    refine ih _ hs.1 ?_
    rw [savesAllDriveId_append, hops, hs.2]
    rfl

theorem drain_invariant (env : Env) (pending : Pending) (fs : FS)
    (st : StateMap) (h : allDriveId st = true) :
    allDriveId (processPendingChanges env pending fs st).2.2.1 = true ∧
    savesAllDriveId (processPendingChanges env pending fs st).2.2.2 = true := by
  unfold processPendingChanges
  by_cases hp : pending = []
  · rw [if_pos hp]
    exact ⟨h, rfl⟩
  · rw [if_neg hp]
    dsimp only
    have h1 := processList_invariant env (popKind pending "deleted").1
      "deleted" (fs, st, []) h rfl
    have h2 := processList_invariant env
      (popKind (popKind pending "deleted").2 "created").1 "created" _
      h1.1 h1.2
    have h3 := processList_invariant env
      (popKind (popKind (popKind pending "deleted").2 "created").2
        "modified").1 "modified" _ h2.1 h2.2
    exact h3

theorem walkLoop_invariant (env : Env) (l : List String)
    (acc : FS × StateMap × List Op) (h : allDriveId acc.2.1 = true)
    (hops : savesAllDriveId acc.2.2 = true) :
    allDriveId (walkLoop env l acc).2.1 = true ∧
    savesAllDriveId (walkLoop env l acc).2.2 = true := by
  induction l generalizing acc with
  | nil => exact ⟨h, hops⟩
  | cons p t ih =>
    simp only [walkLoop]
    split
    · split
      · have hs := push_invariant env acc.1 acc.2.1 p "created" h
        refine ih _ hs.1 ?_
        rw [savesAllDriveId_append, hops, hs.2]
        rfl
      · exact ih _ h hops
    · exact ih _ h hops

theorem initialSync_invariant (env : Env) (fs : FS) (st : StateMap)
    (h : allDriveId st = true) :
    allDriveId (initialSync env fs st).2.1 = true ∧
    savesAllDriveId (initialSync env fs st).2.2 = true := by
  have h1 := pull_invariant env fs st h
  unfold initialSync
  dsimp only
  exact walkLoop_invariant env _ _ h1.1 h1.2

/-- C7: over every engine operation — a push of any event kind, a drain
    of the pending queue, a pull pass, an initial sync — starting from a
    state whose records all carry `drive_id`, every state snapshot
    handed to `SyncState.save` (and the final state) still has a
    `drive_id` in every record: a record with no remoteId never
    persists across a save. -/
theorem c7_invariant (env : Env) (fs : FS) (st : StateMap)
    (pending : Pending) (p : String) (ev : String)
    (h : allDriveId st = true) :
    (allDriveId (syncLocalToDrive env fs st p ev).2.1 = true ∧
      savesAllDriveId (syncLocalToDrive env fs st p ev).2.2 = true) ∧
    (allDriveId (syncDriveToLocal env fs st).2.1 = true ∧
      savesAllDriveId (syncDriveToLocal env fs st).2.2 = true) ∧
    (allDriveId (processPendingChanges env pending fs st).2.2.1 = true ∧
      savesAllDriveId (processPendingChanges env pending fs st).2.2.2 = true) ∧
    (allDriveId (initialSync env fs st).2.1 = true ∧
      savesAllDriveId (initialSync env fs st).2.2 = true) :=
  ⟨push_invariant env fs st p ev h, pull_invariant env fs st h,
   drain_invariant env pending fs st h, initialSync_invariant env fs st h⟩

/-- C7, witness: the invariant at a concrete world — remote `f.txt`,
    local `f.txt`, empty initial state, one pending `created` event. -/
theorem c7_witness :
    (allDriveId (syncLocalToDrive envC1 fsC1 [] "f.txt" "created").2.1 = true ∧
      savesAllDriveId (syncLocalToDrive envC1 fsC1 [] "f.txt" "created").2.2 = true) ∧
    (allDriveId (syncDriveToLocal envC1 fsC1 []).2.1 = true ∧
      savesAllDriveId (syncDriveToLocal envC1 fsC1 []).2.2 = true) ∧
    (allDriveId (processPendingChanges envC1 [("created", ["f.txt"])] fsC1 []).2.2.1 = true ∧
      savesAllDriveId (processPendingChanges envC1 [("created", ["f.txt"])] fsC1 []).2.2.2 = true) ∧
    (allDriveId (initialSync envC1 fsC1 []).2.1 = true ∧
      savesAllDriveId (initialSync envC1 fsC1 []).2.2 = true) :=
  c7_invariant envC1 fsC1 [] [("created", ["f.txt"])] "f.txt" "created" rfl

/-!  C1: what the pull pass guarantees for files it downloads. -/

theorem hasCreateFor_append (p : String) (a b : List Op) :
    hasCreateFor p (a ++ b) = (hasCreateFor p a || hasCreateFor p b) := by
  simp [hasCreateFor]

theorem pullStep_st_self (env : Env) (fs : FS) (st : StateMap)
    (ops : List Op) (f : DriveFile) :
    alookup (pullStep env fs st ops f).1.2.1 f.name = alookup st f.name ∨
    ∃ r', alookup (pullStep env fs st ops f).1.2.1 f.name = some r' ∧
      r'.drive_id = some f.id := by
  unfold pullStep
  repeat' (first | split | dsimp only)
  all_goals
    first
    | exact Or.inl rfl
    | exact Or.inr ⟨((alookup st f.name).getD emptyRec).applyFields
        (some f.id) (some (env.downloadMtime f.id)) f.modifiedTime
        (some (env.downloadChecksum f.id)),
        by simp [updateFileState, alookup_aset], rfl⟩

theorem pullStep_downloads (env : Env) (fs : FS) (st : StateMap)
    (ops : List Op) (f : DriveFile)
    (habs : existsFS fs f.name = false)
    (hdl : env.downloadOk f.id = true)
    (hst : env.statRaises f.name = false)
    (hck : env.checksumRaises f.name = false) :
    ∃ r', alookup (pullStep env fs st ops f).1.2.1 f.name = some r' ∧
      r'.drive_id = some f.id := by
  have hsd : shouldDownload fs st f = true := by
    unfold shouldDownload
    rw [if_pos]
    simp [habs]
  unfold pullStep
  rw [if_pos hsd, if_pos hdl]
  dsimp only
  rw [if_neg (by simp [hst]), if_neg (by simp [hck])]
  exact ⟨((alookup st f.name).getD emptyRec).applyFields
    (some f.id) (some (env.downloadMtime f.id)) f.modifiedTime
    (some (env.downloadChecksum f.id)),
    by simp [updateFileState, alookup_aset], rfl⟩

theorem pullLoop_estQ (env : Env) (l : List DriveFile)
    (acc : FS × StateMap × List Op) (p : String)
    (hsub : ∀ f ∈ l, env.downloadOk f.id = true ∧ f.id ≠ "" ∧
      f.id ∈ listingIds env ∧ env.statRaises f.name = false ∧
      env.checksumRaises f.name = false)
    (hQ : (∃ r i, alookup acc.2.1 p = some r ∧ r.drive_id = some i ∧
        i ≠ "" ∧ i ∈ listingIds env) ∨
      (existsFS acc.1 p = false ∧ alookup acc.2.1 p = none ∧
        ∃ f ∈ l, f.name = p)) :
    ∃ r i, alookup (pullLoop env l acc).1.2.1 p = some r ∧
      r.drive_id = some i ∧ i ≠ "" ∧ i ∈ listingIds env := by
  induction l generalizing acc with
  | nil =>
    rcases hQ with h | ⟨_, _, f, hf, _⟩
    · exact h
    · cases hf
  | cons f t ih =>
    have hf := hsub f (List.mem_cons_self f t)
    have hnr : (pullStep env acc.1 acc.2.1 acc.2.2 f).2 = false :=
      pullStep_raised env _ _ _ f hf.2.2.2.1 hf.2.2.2.2
    simp only [pullLoop]
    rw [if_neg (by simp [hnr])]
    apply ih _ (fun g hg => hsub g (List.mem_cons_of_mem f hg))
    rcases hQ with ⟨r, i, hr, hdid, hine, hiin⟩ | ⟨hab, hno, f', hf'm, hf'n⟩
    · left
      by_cases hname : f.name = p
      · rcases pullStep_st_self env acc.1 acc.2.1 acc.2.2 f with h1 | ⟨r', h1, h2⟩
        · exact ⟨r, i, by rw [hname] at h1; rw [h1]; exact hr, hdid, hine, hiin⟩
        · exact ⟨r', f.id, by rw [hname] at h1; exact h1, h2, hf.2.1, hf.2.2.1⟩
      · exact ⟨r, i, by
          rw [pullStep_st_ne env acc.1 acc.2.1 acc.2.2 f p hname]; exact hr,
          hdid, hine, hiin⟩
    · by_cases hname : f.name = p
      · left
        obtain ⟨r', h1, h2⟩ := pullStep_downloads env acc.1 acc.2.1 acc.2.2 f
          (by rw [hname]; exact hab) hf.1 hf.2.2.2.1 hf.2.2.2.2
        exact ⟨r', f.id, by rw [hname] at h1; exact h1, h2, hf.2.1, hf.2.2.1⟩
      · right
        refine ⟨?_, ?_, ?_⟩
        · rw [existsFS, pullStep_fs_ne env acc.1 acc.2.1 acc.2.2 f p hname]
          exact hab
        · rw [pullStep_st_ne env acc.1 acc.2.1 acc.2.2 f p hname]
          exact hno
        · rcases List.mem_cons.1 hf'm with h1 | h1
          · exact absurd (h1 ▸ hf'n) hname
          · exact ⟨f', h1, hf'n⟩

theorem delStep_presQ (env : Env) (ids : List String) (fs : FS)
    (st : StateMap) (ops : List Op) (q p : String)
    (hQ : ∃ r i, alookup st p = some r ∧ r.drive_id = some i ∧
      i ≠ "" ∧ i ∈ ids) :
    ∃ r i, alookup (delStep env ids fs st ops q).1.2.1 p = some r ∧
      r.drive_id = some i ∧ i ≠ "" ∧ i ∈ ids := by
  rcases hQ with ⟨r, i, hr, hdid, hine, hiin⟩
  by_cases hq : q = p
  · subst hq
    have hnc : ¬ (r.truthy ∧ r.drive_id ∉ ids.map some) := by
      rintro ⟨-, hno⟩
      exact hno (by rw [hdid]; exact List.mem_map_of_mem some hiin)
    unfold delStep
    rw [hr]
    dsimp only
    rw [if_neg hnc]
    exact ⟨r, i, hr, hdid, hine, hiin⟩
  · exact ⟨r, i, by
      rw [delStep_st_ne env ids fs st ops q p (fun h => hq h.symm)];
        exact hr, hdid, hine, hiin⟩

theorem delLoop_presQ (env : Env) (ids : List String) (l : List String)
    (acc : FS × StateMap × List Op) (p : String)
    (hQ : ∃ r i, alookup acc.2.1 p = some r ∧ r.drive_id = some i ∧
      i ≠ "" ∧ i ∈ ids) :
    ∃ r i, alookup (delLoop env ids l acc).1.2.1 p = some r ∧
      r.drive_id = some i ∧ i ≠ "" ∧ i ∈ ids := by
  induction l generalizing acc with
  | nil => exact hQ
  | cons q t ih =>
    have hs := delStep_presQ env ids acc.1 acc.2.1 acc.2.2 q p hQ
    simp only [delLoop]
    by_cases hr : (delStep env ids acc.1 acc.2.1 acc.2.2 q).2 = true
    · rw [if_pos hr]
      exact hs
    · rw [if_neg hr]
      exact ih _ hs

theorem walkLoop_noCreate (env : Env) (l : List String)
    (acc : FS × StateMap × List Op) (p : String)
    (hQ : ∃ r i, alookup acc.2.1 p = some r ∧ r.drive_id = some i ∧ i ≠ "")
    (hops : hasCreateFor p acc.2.2 = false) :
    hasCreateFor p (walkLoop env l acc).2.2 = false := by
  induction l generalizing acc with
  | nil => exact hops
  | cons q t ih =>
    rcases hQ with ⟨r, i, hr, hdid, hine⟩
    simp only [walkLoop]
    by_cases hq : q = p
    · subst hq
      have htr : r.truthy := by
        intro he
        rw [he] at hdid
        exact Option.noConfusion hdid
      have hst : strTruthy r.drive_id := by
        rw [hdid]
        exact hine
      have hcond : r.truthy ∧ strTruthy r.drive_id := ⟨htr, hst⟩
      split
      · rw [hr]
        dsimp only
        rw [if_pos hcond]
        simp only [Bool.false_eq_true, if_false]
        exact ih acc ⟨r, i, hr, hdid, hine⟩ hops
      · exact ih acc ⟨r, i, hr, hdid, hine⟩ hops
    · have hlook : alookup (syncLocalToDrive env acc.1 acc.2.1 q
          "created").2.1 p = some r := by
        rw [syncLocalToDrive_st_ne env acc.1 acc.2.1 q p "created" hq]
        exact hr
      have hnc := syncLocalToDrive_noCreate env acc.1 acc.2.1 q p
        "created" hq
      split
      · split
        · refine ih ((syncLocalToDrive env acc.1 acc.2.1 q "created").1,
            (syncLocalToDrive env acc.1 acc.2.1 q "created").2.1,
            acc.2.2 ++ (syncLocalToDrive env acc.1 acc.2.1 q "created").2.2)
            ⟨r, i, hlook, hdid, hine⟩ ?_
          show hasCreateFor p (acc.2.2 ++
            (syncLocalToDrive env acc.1 acc.2.1 q "created").2.2) = false
          rw [hasCreateFor_append, hops, hnc]
          rfl
        · exact ih acc ⟨r, i, hr, hdid, hine⟩ hops
      · exact ih acc ⟨r, i, hr, hdid, hine⟩ hops

/-- C1, amended: `initial_sync` performs no create-upload for a path
    that is a remote name and was ABSENT locally before the sync: the
    pull pass downloads it, recording its remote id, and the local
    upload walk then skips it — assuming downloads succeed, listed ids
    are non-empty, and no local access raises.  (A file already present
    locally is re-uploaded; see the counterexample.) -/
theorem c1_amended (env : Env) (fs : FS) (p : String)
    (hmem : ∃ f ∈ env.listing, f.name = p)
    (habs : existsFS fs p = false)
    (hdl : ∀ f ∈ env.listing, env.downloadOk f.id = true)
    (hid : ∀ f ∈ env.listing, f.id ≠ "")
    (hstR : ∀ q, env.statRaises q = false)
    (hckR : ∀ q, env.checksumRaises q = false) :
    hasCreateFor p (initialSync env fs []).2.2 = false := by
  have hsub : ∀ f ∈ env.listing, env.downloadOk f.id = true ∧ f.id ≠ "" ∧
      f.id ∈ listingIds env ∧ env.statRaises f.name = false ∧
      env.checksumRaises f.name = false := by
    intro f hf
    refine ⟨hdl f hf, hid f hf, ?_, hstR f.name, hckR f.name⟩
    unfold listingIds
    exact List.mem_map_of_mem _ hf
  have hQ1 := pullLoop_estQ env env.listing (fs, [], []) p hsub
    (Or.inr ⟨habs, rfl, hmem⟩)
  have hnr : (pullLoop env env.listing (fs, ([] : StateMap), [])).2 = false :=
    pullLoop_raised env env.listing _ (fun f _ => ⟨hstR f.name, hckR f.name⟩)
  have hQ2 := delLoop_presQ env (listingIds env)
    (((pullLoop env env.listing (fs, [], [])).1.2.1).map Prod.fst)
    (pullLoop env env.listing (fs, [], [])).1 p hQ1
  have hops1 : hasCreateFor p
      (pullLoop env env.listing (fs, ([] : StateMap), [])).1.2.2 = false :=
    pullLoop_noCreate env env.listing _ p rfl
  have hops2 := delLoop_noCreate env (listingIds env)
    (((pullLoop env env.listing (fs, [], [])).1.2.1).map Prod.fst)
    (pullLoop env env.listing (fs, [], [])).1 p hops1
  have hpass_st : (syncDriveToLocal env fs []).2.1 =
      (delLoop env (listingIds env)
        (((pullLoop env env.listing (fs, [], [])).1.2.1).map Prod.fst)
        (pullLoop env env.listing (fs, [], [])).1).1.2.1 := by
    unfold syncDriveToLocal
    dsimp only
    rw [if_neg (by simp [hnr])]
    split <;> rfl
  have hpass_ops : hasCreateFor p (syncDriveToLocal env fs []).2.2 = false := by
    unfold syncDriveToLocal
    dsimp only
    rw [if_neg (by simp [hnr])]
    split
    · rw [hasCreateFor_append, hops2]
      rfl
    · exact hops2
  have hQpass : ∃ r i, alookup (syncDriveToLocal env fs []).2.1 p = some r ∧
      r.drive_id = some i ∧ i ≠ "" := by
    obtain ⟨r, i, h1, h2, h3, -⟩ := hQ2
    exact ⟨r, i, by rw [hpass_st]; exact h1, h2, h3⟩
  unfold initialSync
  dsimp only
  exact walkLoop_noCreate env _ _ p hQpass hpass_ops

/-- C1, witness: the amended statement at the concrete world of the
    counterexample but with the local file absent — `f.txt` is
    downloaded by the pull pass and not re-uploaded. -/
theorem c1_witness :
    existsFS ([] : FS) "f.txt" = false ∧
    hasCreateFor "f.txt" (initialSync envC1 [] []).2.2 = false :=
  ⟨rfl, c1_amended envC1 [] "f.txt" (by decide) rfl (by decide) (by decide)
    (fun _ => rfl) (fun _ => rfl)⟩

/-!  C5: idempotence of the pull pass under the corrected hypotheses. -/

theorem mergeOpt_of_isSome {α : Type} (d o : Option α) (hd : d.isSome = true) :
    mergeOpt d o = d := by
  cases d with
  | none => simp at hd
  | some v => rfl

theorem shouldDownload_eq_false (fs : FS) (st : StateMap) (f : DriveFile)
    (h : shouldDownload fs st f = false) : pullNoOp fs st f := by
  unfold shouldDownload at h
  by_cases hex : existsFS fs f.name = true
  · refine ⟨hex, fun r hr => ?_⟩
    rw [if_neg (by simp [hex])] at h
    rw [hr] at h
    dsimp only at h
    by_cases hc : r.truthy ∧ r.drive_mtime ≠ f.modifiedTime
    · rw [if_pos hc] at h
      cases h
    · by_cases htr : r.truthy
      · right
        by_contra hmt
        exact hc ⟨htr, hmt⟩
      · left
        exact not_not.mp htr
  · exfalso
    rw [if_pos hex] at h
    cases h

theorem pullStep_noop (env : Env) (fs : FS) (st : StateMap) (ops : List Op)
    (f : DriveFile) (h : pullNoOp fs st f) :
    pullStep env fs st ops f = ((fs, st, ops), false) := by
  have hsd : shouldDownload fs st f = false := by
    unfold shouldDownload
    rw [if_neg (by simp [h.1])]
    cases halo : alookup st f.name with
    | none => rfl
    | some r =>
      dsimp only
      have hc : ¬ (r.truthy ∧ r.drive_mtime ≠ f.modifiedTime) := by
        rintro ⟨htr, hmt⟩
        rcases h.2 r halo with he | he
        · exact htr he
        · exact hmt he
      rw [if_neg hc]
  unfold pullStep
  rw [if_neg (by simp [hsd])]

theorem pullLoop_noop (env : Env) (l : List DriveFile)
    (acc : FS × StateMap × List Op)
    (h : ∀ f ∈ l, pullNoOp acc.1 acc.2.1 f) :
    pullLoop env l acc = (acc, false) := by
  induction l with
  | nil => rfl
  | cons f t ih =>
    simp only [pullLoop]
    rw [pullStep_noop env acc.1 acc.2.1 acc.2.2 f (h f (List.mem_cons_self f t))]
    rw [if_neg (by simp)]
    exact ih (fun g hg => h g (List.mem_cons_of_mem f hg))

theorem delStep_noop (env : Env) (ids : List String) (fs : FS)
    (st : StateMap) (ops : List Op) (p : String)
    (h : ∀ q r, alookup st q = some r → r.truthy →
      ∃ i, r.drive_id = some i ∧ i ∈ ids) :
    delStep env ids fs st ops p = ((fs, st, ops), false) := by
  unfold delStep
  cases halo : alookup st p with
  | none => rfl
  | some r =>
    dsimp only
    rw [if_neg ?_]
    rintro ⟨htr, hno⟩
    obtain ⟨i, hdid, hiin⟩ := h p r halo htr
    exact hno (by rw [hdid]; exact List.mem_map_of_mem some hiin)

theorem delLoop_noop (env : Env) (ids : List String) (l : List String)
    (acc : FS × StateMap × List Op)
    (h : ∀ q r, alookup acc.2.1 q = some r → r.truthy →
      ∃ i, r.drive_id = some i ∧ i ∈ ids) :
    delLoop env ids l acc = (acc, false) := by
  induction l with
  | nil => rfl
  | cons p t ih =>
    simp only [delLoop]
    rw [delStep_noop env ids acc.1 acc.2.1 acc.2.2 p h]
    rw [if_neg (by simp)]
    exact ih

/-- A pass over a world already in agreement does nothing at all. -/
theorem pass_noop (env : Env) (fs : FS) (st : StateMap)
    (hno : ∀ f ∈ env.listing, pullNoOp fs st f) (hgood : goodSt env st) :
    syncDriveToLocal env fs st = (fs, st, []) := by
  unfold syncDriveToLocal
  dsimp only
  rw [pullLoop_noop env env.listing (fs, st, []) hno, if_neg (by simp)]
  dsimp only
  rw [delLoop_noop env (listingIds env) (st.map Prod.fst) (fs, st, []) hgood,
    if_neg (by simp)]

theorem pullStep_est (env : Env) (fs : FS) (st : StateMap) (ops : List Op)
    (f : DriveFile) (hdl : env.downloadOk f.id = true)
    (hmt : f.modifiedTime.isSome = true)
    (hst : env.statRaises f.name = false)
    (hck : env.checksumRaises f.name = false) :
    pullNoOp (pullStep env fs st ops f).1.1 (pullStep env fs st ops f).1.2.1
      f := by
  by_cases hsd : shouldDownload fs st f = true
  · unfold pullStep
    rw [if_pos hsd, if_pos hdl]
    dsimp only
    rw [if_neg (by simp [hst]), if_neg (by simp [hck])]
    refine ⟨by simp [existsFS, alookup_aset], fun r hr => ?_⟩
    right
    simp only [updateFileState, alookup_aset, if_pos rfl] at hr
    rw [← Option.some_inj.1 hr]
    show mergeOpt f.modifiedTime _ = f.modifiedTime
    rw [mergeOpt_of_isSome _ _ hmt]
  · have hsd' : shouldDownload fs st f = false := by
      cases hb : shouldDownload fs st f
      · rfl
      · exact absurd hb hsd
    rw [pullStep_noop env fs st ops f (shouldDownload_eq_false fs st f hsd')]
    exact shouldDownload_eq_false fs st f hsd'

theorem pullLoop_presNoOp (env : Env) (t : List DriveFile)
    (acc : FS × StateMap × List Op) (f : DriveFile)
    (hnames : ∀ g ∈ t, g.name ≠ f.name)
    (h : pullNoOp acc.1 acc.2.1 f) :
    pullNoOp (pullLoop env t acc).1.1 (pullLoop env t acc).1.2.1 f := by
  induction t generalizing acc with
  | nil => exact h
  | cons g t' ih =>
    have hg := hnames g (List.mem_cons_self g t')
    have hstep : pullNoOp (pullStep env acc.1 acc.2.1 acc.2.2 g).1.1
        (pullStep env acc.1 acc.2.1 acc.2.2 g).1.2.1 f := by
      refine ⟨pullStep_fs_mono env acc.1 acc.2.1 acc.2.2 g f.name h.1,
        fun r hr => ?_⟩
      rw [pullStep_st_ne env acc.1 acc.2.1 acc.2.2 g f.name hg] at hr
      exact h.2 r hr
    simp only [pullLoop]
    by_cases hraised : (pullStep env acc.1 acc.2.1 acc.2.2 g).2 = true
    · rw [if_pos hraised]
      exact hstep
    · rw [if_neg hraised]
      exact ih _ (fun x hx => hnames x (List.mem_cons_of_mem g hx)) hstep

theorem pullLoop_establishes (env : Env) (l : List DriveFile)
    (acc : FS × StateMap × List Op)
    (hnd : (l.map DriveFile.name).Nodup)
    (hsub : ∀ f ∈ l, env.downloadOk f.id = true ∧
      f.modifiedTime.isSome = true ∧ env.statRaises f.name = false ∧
      env.checksumRaises f.name = false) :
    ∀ f ∈ l, pullNoOp (pullLoop env l acc).1.1
      (pullLoop env l acc).1.2.1 f := by
  induction l generalizing acc with
  | nil => intro f hf; cases hf
  | cons g t ih =>
    have hg := hsub g (List.mem_cons_self g t)
    have hnr : (pullStep env acc.1 acc.2.1 acc.2.2 g).2 = false :=
      pullStep_raised env _ _ _ g hg.2.2.1 hg.2.2.2
    simp only [List.map_cons, List.nodup_cons] at hnd
    intro f hf
    simp only [pullLoop]
    rw [if_neg (by simp [hnr])]
    rcases List.mem_cons.1 hf with rfl | hft
    · apply pullLoop_presNoOp env t _ f
      · intro x hx hxe
        exact hnd.1 (hxe ▸ List.mem_map_of_mem DriveFile.name hx)
      · exact pullStep_est env acc.1 acc.2.1 acc.2.2 f hg.1 hg.2.1
          hg.2.2.1 hg.2.2.2
    · exact ih _ hnd.2 (fun x hx => hsub x (List.mem_cons_of_mem g hx)) f hft

theorem pullLoop_goodSt (env : Env) (l : List DriveFile)
    (acc : FS × StateMap × List Op) (hgood : goodSt env acc.2.1)
    (hsub : ∀ f ∈ l, f.id ∈ listingIds env) :
    goodSt env (pullLoop env l acc).1.2.1 := by
  induction l generalizing acc with
  | nil => exact hgood
  | cons g t ih =>
    have hstep : goodSt env (pullStep env acc.1 acc.2.1 acc.2.2 g).1.2.1 := by
      intro p r hr htr
      by_cases hp : g.name = p
      · subst hp
        rcases pullStep_st_self env acc.1 acc.2.1 acc.2.2 g with h1 | ⟨r', h1, h2⟩
        · rw [h1] at hr
          exact hgood g.name r hr htr
        · rw [h1] at hr
          rw [Option.some_inj.1 hr] at h2
          exact ⟨g.id, h2, hsub g (List.mem_cons_self g t)⟩
      · rw [pullStep_st_ne env acc.1 acc.2.1 acc.2.2 g p hp] at hr
        exact hgood p r hr htr
    simp only [pullLoop]
    by_cases hraised : (pullStep env acc.1 acc.2.1 acc.2.2 g).2 = true
    · rw [if_pos hraised]
      exact hstep
    · rw [if_neg hraised]
      exact ih _ hstep (fun x hx => hsub x (List.mem_cons_of_mem g hx))

/-- C5, amended: provided the remote names are pairwise distinct, every
    listed entry carries a modification time, all downloads succeed, no
    local stat/checksum access raises, and every truthy tracked record's
    `drive_id` appears in the listing, running the pull pass twice with
    no intervening change makes the second run a complete no-op: no
    download, no unlink, an empty trace, and a file system and state map
    identical to those after the first run. -/
theorem c5_amended (env : Env) (fs : FS) (st : StateMap)
    (hnd : (env.listing.map DriveFile.name).Nodup)
    (hdl : ∀ f ∈ env.listing, env.downloadOk f.id = true)
    (hmt : ∀ f ∈ env.listing, f.modifiedTime.isSome = true)
    (hstR : ∀ q, env.statRaises q = false)
    (hckR : ∀ q, env.checksumRaises q = false)
    (hgood : goodSt env st) :
    syncDriveToLocal env (syncDriveToLocal env fs st).1
        (syncDriveToLocal env fs st).2.1
      = ((syncDriveToLocal env fs st).1,
         (syncDriveToLocal env fs st).2.1, ([] : List Op)) := by
  have hnr : (pullLoop env env.listing (fs, st, [])).2 = false :=
    pullLoop_raised env env.listing _ (fun f _ => ⟨hstR f.name, hckR f.name⟩)
  have hgood1 : goodSt env (pullLoop env env.listing (fs, st, [])).1.2.1 :=
    pullLoop_goodSt env env.listing (fs, st, []) hgood
      (fun f hf => by unfold listingIds; exact List.mem_map_of_mem _ hf)
  have hnoop : ∀ f ∈ env.listing,
      pullNoOp (pullLoop env env.listing (fs, st, [])).1.1
        (pullLoop env env.listing (fs, st, [])).1.2.1 f :=
    pullLoop_establishes env env.listing (fs, st, []) hnd
      (fun f hf => ⟨hdl f hf, hmt f hf, hstR f.name, hckR f.name⟩)
  have hdel : delLoop env (listingIds env)
      (((pullLoop env env.listing (fs, st, [])).1.2.1).map Prod.fst)
      (pullLoop env env.listing (fs, st, [])).1
      = ((pullLoop env env.listing (fs, st, [])).1, false) :=
    delLoop_noop env (listingIds env) _ _ hgood1
  have hpass : syncDriveToLocal env fs st
      = (pullLoop env env.listing (fs, st, [])).1 := by
    unfold syncDriveToLocal
    dsimp only
    rw [if_neg (by simp [hnr]), hdel, if_neg (by simp)]
  rw [hpass]
  exact pass_noop env _ _ hnoop hgood1

/-- C5, witness: one remote file `a`, nothing local, nothing tracked —
    the second pull pass is a literal no-op. -/
theorem c5_witness :
    syncDriveToLocal envC5w (syncDriveToLocal envC5w [] []).1
        (syncDriveToLocal envC5w [] []).2.1
      = ((syncDriveToLocal envC5w [] []).1,
         (syncDriveToLocal envC5w [] []).2.1, ([] : List Op)) :=
  c5_amended envC5w [] [] (by decide) (by decide) (by decide)
    (fun _ => rfl) (fun _ => rfl) (fun p r h => Option.noConfusion h)

end GDSync
